import Mathlib

/-!
Verification of the ErikLibC heap allocator (src/src/malloc.c).

The allocator manages a fixed 256-byte static buffer (`heap_buffer`)
through an intrusive doubly-linked list of `heap_block` headers laid out
contiguously inside the buffer.  We embed the code in two layers:

1. A *block-list model* (`Block`, `Heap`): the heap is the address-ordered
   list of blocks; `previous`/`next` pointers and header addresses are
   represented positionally (address of block i = heapStart + sum of
   `hdrSize + size` over earlier blocks).  Every operation of malloc.c is
   translated line by line against this representation.  This model is
   exact for contract-respecting calls: pointers handed to `free` that are
   the payload address of a current block, or that fail the range guard.

2. A *memory model* (`MemModel`): headers stored at explicit numeric
   addresses (an address → header map, defaulting to the all-zero header,
   matching the zero-initialised static buffer), with `first_block` /
   `last_block` kept as addresses and every field store of the C source
   transcribed individually.  This model also represents stale headers
   left behind by coalescing, so it decides what the code does on
   double frees and on pointers just past the end of the buffer.
-/

/-- `sizeof(heap_block)` on the 64-bit reference target:
`bool` (padded) + `size_t` + two pointers = 32 bytes. -/
def hdrSize : Nat := 32

/-- `sizeof(heap_buffer)`: the backing store is `static char heap_buffer[0x100]`. -/
def bufSize : Nat := 0x100

/-- The runtime address of `heap_buffer`, i.e. the value `heap_init` stores in
`heap_start`.  A static buffer has some fixed nonzero address; the concrete
value is irrelevant to the allocator, we fix one so states are computable. -/
def heapStart : Nat := 0x1000

/-- `heap_end` as set by `heap_init`: `heap_start + sizeof(heap_buffer)`.
No other code ever changes it (the growth hook always fails). -/
def heapEnd : Nat := heapStart + bufSize

/-- One heap block in the block-list model: the `used` flag and payload
`size` of a `heap_block` header.  `previous`/`next` are positional. -/
structure Block where
  used : Bool
  size : Nat
deriving DecidableEq, Repr

/-- The heap: blocks in address order from `first_block` to `last_block`. -/
abbrev Heap := List Block

/-- `heap_init`: one free block covering the whole buffer,
size `sizeof(heap_buffer) - sizeof(heap_block)`. -/
def heap_init : Heap := [⟨false, bufSize - hdrSize⟩]

/-- `heap_split_block(first, size)` viewed on one block: the pair of blocks
that replace `first`.  The left part keeps `first`s used flag and gets
payload `size`; the right part is free with the remaining payload
`first->size - size - sizeof(heap_block)`. -/
def heap_split_block (first : Block) (size : Nat) : Block × Block :=
  (⟨first.used, size⟩, ⟨false, first.size - size - hdrSize⟩)

/-- `heap_merge_blocks(first, second)`: `first` absorbs `second`,
`first->size += second->size + sizeof(heap_block)`. -/
def heap_merge_blocks (first second : Block) : Block :=
  ⟨first.used, first.size + second.size + hdrSize⟩

/-- `do_malloc`: first-fit scan from `first_block`.  On success returns the
offset (from `heap_start`) of the chosen block header together with the
updated heap; the split happens exactly when
`i->size > size + 2 * sizeof(heap_block)`. -/
def do_malloc (size : Nat) : Heap → Option (Nat × Heap)
  | [] => none
  | b :: rest =>
    if b.used = false ∧ size ≤ b.size then
      if size + 2 * hdrSize < b.size then
        some (0, ⟨true, (heap_split_block b size).1.size⟩ :: (heap_split_block b size).2 :: rest)
      else
        some (0, ⟨true, b.size⟩ :: rest)
    else
      match do_malloc size rest with
      | some (o, rest') => some (hdrSize + b.size + o, b :: rest')
      | none => none

/-- `expand_heap`: the growth hook is a stub, it always returns `false`. -/
def expand_heap : Bool := false

/-- `malloc(size)`: one `do_malloc` scan; on success the returned pointer is
the payload address `(uint8_t *)i + sizeof(heap_block)`.  Since
`expand_heap` always returns `false`, the retry loop runs its body exactly
once and returns `NULL` (modelled as `none`) with the heap untouched. -/
def malloc (size : Nat) (h : Heap) : Option Nat × Heap :=
  match do_malloc size h with
  | some (o, h') => (some (heapStart + o + hdrSize), h')
  | none => (none, h)

/-- The effect of `i->used = false` on the freed block. -/
def markFree (b : Block) : Block := ⟨false, b.size⟩

/-- Mark the target block unused, then the forward-coalescing step of
`free`: merge with `next` when it exists and is unused.  Returns the
resulting block together with the list that follows it. -/
def forwardFree (b : Block) (post : Heap) : Block × Heap :=
  match post with
  | [] => (markFree b, [])
  | c :: post' =>
    if c.used = false then (heap_merge_blocks (markFree b) c, post') else (markFree b, c :: post')

/-- Walk to the block whose header lies at offset `i` from `heap_start`,
mark it unused, coalesce forward with `next`, then backward with
`previous` when that block is unused — the body of `free` after the range
guard.  An offset that is not the header of a current block leaves the
list unchanged (the C source would be reading non-header bytes there; the
memory model covers those calls). -/
def do_free : Nat → Heap → Heap
  | _, [] => []
  | i, b :: rest =>
    if i = 0 then
      (forwardFree b rest).1 :: (forwardFree b rest).2
    else if i = hdrSize + b.size then
      match rest with
      | [] => b :: rest
      | c :: rest' =>
        if b.used = false then
          heap_merge_blocks b (forwardFree c rest').1 :: (forwardFree c rest').2
        else
          b :: (forwardFree c rest').1 :: (forwardFree c rest').2
    else if i < hdrSize + b.size then
      b :: rest
    else
      b :: do_free (i - (hdrSize + b.size)) rest

/-- `free(ptr)`: compute the header address `ptr - sizeof(heap_block)`;
if it falls outside `[heap_start, heap_end)` return without touching
anything, else run the mark-and-coalesce body. -/
def free (ptr : Nat) (h : Heap) : Heap :=
  let i := ptr - hdrSize
  if i < heapStart ∨ heapEnd ≤ i then h
  else do_free (i - heapStart) h

/-- Total header+payload footprint of a heap segment:
Σ over blocks of `size + sizeof(heap_block)`. -/
def heapSize : Heap → Nat
  | [] => 0
  | b :: t => (b.size + hdrSize) + heapSize t

/-- Each block paired with its header offset from `heap_start`. -/
def withOffs : Nat → Heap → List (Nat × Block)
  | _, [] => []
  | o, b :: t => (o, b) :: withOffs (o + (hdrSize + b.size)) t

/-- `p` is the payload address of a currently used block: exactly the
pointers a well-behaved client may pass to `free` (returned by `malloc`
and not yet released). -/
def ValidPtr (h : Heap) (p : Nat) : Prop :=
  ∃ ob ∈ withOffs 0 h, ob.2.used = true ∧ p = heapStart + ob.1 + hdrSize

instance (h : Heap) (p : Nat) : Decidable (ValidPtr h p) :=
  inferInstanceAs (Decidable (∃ ob ∈ withOffs 0 h, ob.2.used = true ∧ p = heapStart + ob.1 + hdrSize))

/-- `p` is the payload address of a current block that is already free. -/
def FreePtr (h : Heap) (p : Nat) : Prop :=
  ∃ ob ∈ withOffs 0 h, ob.2.used = false ∧ p = heapStart + ob.1 + hdrSize

instance (h : Heap) (p : Nat) : Decidable (FreePtr h p) :=
  inferInstanceAs (Decidable (∃ ob ∈ withOffs 0 h, ob.2.used = false ∧ p = heapStart + ob.1 + hdrSize))

/-- Heap states reachable from `heap_init` by contract-respecting calls:
any `malloc`, and `free` on live payload pointers. -/
inductive Reachable : Heap → Prop where
  | init : Reachable heap_init
  | malloc (n : Nat) {h : Heap} : Reachable h → Reachable (malloc n h).2
  | free (p : Nat) {h : Heap} : Reachable h → ValidPtr h p → Reachable (free p h)

/-- No two address-adjacent blocks are both free. -/
def NoAdjFree (h : Heap) : Prop :=
  List.Chain' (fun a b => a.used = true ∨ b.used = true) h

instance (h : Heap) : Decidable (NoAdjFree h) :=
  inferInstanceAs (Decidable (List.Chain' (fun (a b : Block) => a.used = true ∨ b.used = true) h))

/-!
## Memory model

Headers at explicit addresses.  `heap_buffer` is a zero-initialised static
array, so a header slot that was never stored reads as the all-zero
header (`used = false`, `size = 0`, null links).  Null pointers are the
address `0`; `heap_start = 0x1000 > 0`, so `0` is never a header address.
Each C field store becomes one slot update, in source order.
-/

namespace MemModel

/-- A `heap_block` header as stored in memory; `previous`/`next` hold the
addresses of the neighbour headers, `0` standing for `NULL`. -/
structure Header where
  used : Bool
  size : Nat
  previous : Nat
  next : Nat
deriving DecidableEq, Repr

/-- Contents of a header slot that was never written: the static buffer is
zero-initialised, so all fields read as zero. -/
def zeroH : Header := ⟨false, 0, 0, 0⟩

/-- Header slots as an address-indexed association list. -/
abbrev Mem := List (Nat × Header)

/-- Read the header at address `a` (never-written slots read as `zeroH`). -/
def mread : Mem → Nat → Header
  | [], _ => zeroH
  | (b, g) :: t, a => if a = b then g else mread t a

/-- Store a whole header at address `a`. -/
def mstore : Mem → Nat → Header → Mem
  | [], a, g => [(a, g)]
  | (b, g0) :: t, a, g => if a = b then (a, g) :: t else (b, g0) :: mstore t a g

/-- The allocator state: memory plus the `first_block`/`last_block`
globals (header addresses). -/
structure MState where
  mem : Mem
  first_block : Nat
  last_block : Nat
deriving DecidableEq, Repr

/-- Read a header through the state. -/
def readH (s : MState) (a : Nat) : Header := mread s.mem a

/-- `a->used = v`. -/
def setUsed (s : MState) (a : Nat) (v : Bool) : MState :=
  { s with mem := mstore s.mem a { mread s.mem a with used := v } }

/-- `a->size = v`. -/
def setSize (s : MState) (a : Nat) (v : Nat) : MState :=
  { s with mem := mstore s.mem a { mread s.mem a with size := v } }

/-- `a->previous = v`. -/
def setPrev (s : MState) (a : Nat) (v : Nat) : MState :=
  { s with mem := mstore s.mem a { mread s.mem a with previous := v } }

/-- `a->next = v`. -/
def setNext (s : MState) (a : Nat) (v : Nat) : MState :=
  { s with mem := mstore s.mem a { mread s.mem a with next := v } }

/-- `heap_init`: `first_block = last_block = heap_start`, then the field
stores of malloc.c lines 108–111 in source order. -/
def heap_init : MState :=
  let s : MState := ⟨[], heapStart, heapStart⟩
  let s := setSize s heapStart (bufSize - hdrSize)
  let s := setPrev s heapStart 0
  let s := setNext s heapStart 0
  setUsed s heapStart false

/-- `heap_split_block(first, size)`, each line transcribed:
compute `second` and `second_size`, fill in `second`s four fields, hook
`first` onto it, repoint `second->next->previous` if `second->next` is
non-null, and move `last_block` when it was `first`. -/
def heap_split_block (s : MState) (first : Nat) (size : Nat) : MState :=
  let second := first + hdrSize + size
  let second_size := (readH s first).size - size - hdrSize
  let s := setUsed s second false
  let s := setPrev s second first
  let s := setNext s second (readH s first).next
  let s := setSize s second second_size
  let s := setNext s first second
  let s := setSize s first size
  let s :=
    if (readH s second).next ≠ 0 then setPrev s (readH s second).next second else s
  if s.last_block = first then { s with last_block := second } else s

/-- `heap_merge_blocks(first, second)`: repoint `second->next->previous`
when non-null, splice out `second`, grow `first` by
`second->size + sizeof(heap_block)`, and move `last_block` when it was
`second`. -/
def heap_merge_blocks (s : MState) (first second : Nat) : MState :=
  let s :=
    if (readH s second).next ≠ 0 then setPrev s (readH s second).next first else s
  let s := setNext s first (readH s second).next
  let s := setSize s first ((readH s first).size + (readH s second).size + hdrSize)
  if s.last_block = second then { s with last_block := first } else s

/-- `do_malloc`: follow `next` links from `i`, looking for the first block
with `!i->used && i->size >= size`; split when
`i->size > size + 2 * sizeof(heap_block)`, mark used, return the header
address.  `fuel` bounds the link chase (the C loop ends at `NULL`; every
call below passes more fuel than the chain is long). -/
def do_malloc_from (size : Nat) : Nat → MState → Nat → Option Nat × MState
  | 0, s, _ => (none, s)
  | fuel + 1, s, i =>
    if i = 0 then (none, s)
    else if (readH s i).used = false ∧ size ≤ (readH s i).size then
      let s := if size + 2 * hdrSize < (readH s i).size then heap_split_block s i size else s
      (some i, setUsed s i true)
    else
      do_malloc_from size fuel s (readH s i).next

/-- `do_malloc(size)` starting at `first_block`. -/
def do_malloc (s : MState) (size : Nat) : Option Nat × MState :=
  do_malloc_from size (s.mem.length + 1) s s.first_block

/-- `malloc(size)`: one scan (the growth hook always declines), returning
the payload address `i + sizeof(heap_block)` on success. -/
def malloc (s : MState) (size : Nat) : Option Nat × MState :=
  match do_malloc s size with
  | (some i, s') => (some (i + hdrSize), s')
  | (none, s') => (none, s')

/-- `free(ptr)`: header address `ptr - sizeof(heap_block)`; range guard
against `[heap_start, heap_end)`; `i->used = false`; merge forward with
`i->next` when non-null and unused; merge backward with `i->previous`
when non-null and unused. -/
def free (s : MState) (ptr : Nat) : MState :=
  let i := ptr - hdrSize
  if i < heapStart ∨ heapEnd ≤ i then s
  else
    let s := setUsed s i false
    let s :=
      if (readH s i).next ≠ 0 ∧ (readH s (readH s i).next).used = false then
        heap_merge_blocks s i (readH s i).next
      else s
    if (readH s i).previous ≠ 0 ∧ (readH s (readH s i).previous).used = false then
      heap_merge_blocks s (readH s i).previous i
    else s

/-- A consumer storing data into memory it owns: the contract lets the
client write anything into a live payload span; we track such writes at
header-slot granularity. -/
def clientWrite (s : MState) (a : Nat) (v : Header) : MState :=
  { s with mem := mstore s.mem a v }

end MemModel

/-!
## Basic facts about the list model
-/

theorem hdrSize_pos : 0 < hdrSize := by decide

theorem heapSize_append (l m : Heap) : heapSize (l ++ m) = heapSize l + heapSize m := by
  induction l with
  | nil => simp [heapSize]
  | cons b t ih => simp [heapSize, ih]; omega

/-- What `do_malloc` makes of the selected block, stated from the spec:
split exactly when the block size strictly exceeds the request plus two
headers; otherwise take the whole block with its size unchanged. -/
def mallocResult (b : Block) (n : Nat) : Heap :=
  if n + 2 * hdrSize < b.size then
    [⟨true, n⟩, ⟨false, b.size - n - hdrSize⟩]
  else
    [⟨true, b.size⟩]

theorem mallocResult_sum (b : Block) (n : Nat) (_hn : n ≤ b.size) :
    heapSize (mallocResult b n) = b.size + hdrSize := by
  unfold mallocResult
  split
  · simp [heapSize]
    omega
  · simp [heapSize]

/-- First-fit characterisation of `do_malloc`, success direction: when a
prefix of non-matching blocks is followed by a free block large enough,
the scan picks exactly that block, returns its offset, and rewrites it to
`mallocResult`. -/
theorem do_malloc_spec (n : Nat) :
    ∀ (pre : Heap) (b : Block) (post : Heap),
      (∀ c ∈ pre, c.used = true ∨ c.size < n) → b.used = false → n ≤ b.size →
      do_malloc n (pre ++ b :: post) = some (heapSize pre, pre ++ mallocResult b n ++ post) := by
  intro pre
  induction pre with
  | nil =>
    intro b post _ hb hn
    simp only [List.nil_append, do_malloc]
    rw [if_pos ⟨hb, hn⟩]
    unfold mallocResult
    split
    · simp [heap_split_block, heapSize]
    · simp [heapSize]
  | cons c pre ih =>
    intro b post hpre hb hn
    have hc := hpre c (by simp)
    have hnotfit : ¬(c.used = false ∧ n ≤ c.size) := by
      rcases hc with h1 | h1
      · intro hx; rw [h1] at hx; exact absurd hx.1 (by simp)
      · intro hx; omega
    simp only [List.cons_append, do_malloc, if_neg hnotfit]
    simp only [List.append_eq]
    rw [ih b post (fun x hx => hpre x (by simp [hx])) hb hn]
    simp only [Option.some.injEq, Prod.mk.injEq, heapSize, List.cons_append, and_true, true_and]
    omega

/-- Failure characterisation of `do_malloc`: the scan returns `NULL` iff
no block is both unused and large enough. -/
theorem do_malloc_none_iff (n : Nat) (h : Heap) :
    do_malloc n h = none ↔ ∀ c ∈ h, c.used = true ∨ c.size < n := by
  induction h with
  | nil => simp [do_malloc]
  | cons b t ih =>
    simp only [do_malloc]
    by_cases hb : b.used = false ∧ n ≤ b.size
    · rw [if_pos hb]
      constructor
      · intro e; exact absurd e (by split <;> simp)
      · intro hall
        rcases hall b (by simp) with h1 | h1
        · exact absurd h1 (by rw [hb.1]; simp)
        · omega
    · rw [if_neg hb]
      constructor
      · intro e c hc
        rcases List.mem_cons.mp hc with rfl | hct
        · rcases Bool.eq_false_or_eq_true c.used with h1 | h1
          · left; exact h1
          · right
            by_contra h2
            exact hb ⟨h1, by omega⟩
        · revert e
          cases he : do_malloc n t with
          | none => intro _; exact (ih.mp he) c hct
          | some p => intro e; rw [he] at *; exact absurd e (by simp)
      · intro hall
        have : do_malloc n t = none := ih.mpr (fun c hc => hall c (by simp [hc]))
        rw [this]

/-- Converse of `do_malloc_spec`: any successful scan arises from a
first-fit decomposition of the heap. -/
theorem do_malloc_eq_some (n : Nat) :
    ∀ (h : Heap) (o : Nat) (h' : Heap), do_malloc n h = some (o, h') →
      ∃ pre b post, h = pre ++ b :: post ∧ (∀ c ∈ pre, c.used = true ∨ c.size < n) ∧
        b.used = false ∧ n ≤ b.size ∧ o = heapSize pre ∧
        h' = pre ++ mallocResult b n ++ post := by
  intro h
  induction h with
  | nil => intro o h' e; simp [do_malloc] at e
  | cons b t ih =>
    intro o h' e
    simp only [do_malloc] at e
    by_cases hb : b.used = false ∧ n ≤ b.size
    · rw [if_pos hb] at e
      by_cases hs : n + 2 * hdrSize < b.size
      · rw [if_pos hs] at e
        simp only [Option.some.injEq, Prod.mk.injEq] at e
        obtain ⟨rfl, rfl⟩ := e
        exact ⟨[], b, t, by simp, by simp, hb.1, hb.2, by simp [heapSize],
          by simp [mallocResult, if_pos hs, heap_split_block]⟩
      · rw [if_neg hs] at e
        simp only [Option.some.injEq, Prod.mk.injEq] at e
        obtain ⟨rfl, rfl⟩ := e
        exact ⟨[], b, t, by simp, by simp, hb.1, hb.2, by simp [heapSize],
          by simp [mallocResult, if_neg hs]⟩
    · rw [if_neg hb] at e
      cases he : do_malloc n t with
      | none => rw [he] at e; simp at e
      | some p =>
        obtain ⟨o2, t2⟩ := p
        rw [he] at e
        simp only [Option.some.injEq, Prod.mk.injEq] at e
        obtain ⟨rfl, rfl⟩ := e
        obtain ⟨pre, bb, post, rfl, hpre, hbu, hbs, rfl, rfl⟩ := ih o2 t2 he
        refine ⟨b :: pre, bb, post, by simp, ?_, hbu, hbs, ?_, by simp⟩
        · intro c hc
          rcases List.mem_cons.mp hc with rfl | hct
          · rcases Bool.eq_false_or_eq_true c.used with h1 | h1
            · left; exact h1
            · right
              by_contra h2
              exact hb ⟨h1, by omega⟩
          · exact hpre c hct
        · simp only [heapSize]
          omega

theorem do_malloc_sum {n o : Nat} {h h' : Heap} (e : do_malloc n h = some (o, h')) :
    heapSize h' = heapSize h := by
  obtain ⟨pre, b, post, rfl, _, _, hbs, rfl, rfl⟩ := do_malloc_eq_some n _ _ _ e
  simp only [heapSize_append, heapSize, mallocResult_sum b n hbs]
  omega

theorem malloc_sum (n : Nat) (h : Heap) : heapSize (malloc n h).2 = heapSize h := by
  unfold malloc
  cases he : do_malloc n h with
  | none => simp
  | some p =>
    obtain ⟨o, h'⟩ := p
    simpa using do_malloc_sum he

/-!
## Characterising `free`
-/

/-- The backward-coalescing step of `free` seen from the front of the
list: walk to the last block of `pre` (the freed block's `previous`) and
merge it with the already forward-coalesced block `b'` when it is unused. -/
def backAttach : Heap → Block → Heap → Heap
  | [], b', post' => b' :: post'
  | a :: pre, b', post' =>
    match pre with
    | [] => if a.used = false then heap_merge_blocks a b' :: post' else a :: b' :: post'
    | _ :: _ => a :: backAttach pre b' post'

theorem heapSize_pos_of_ne_nil {l : Heap} (h : l ≠ []) : 0 < heapSize l := by
  cases l with
  | nil => exact absurd rfl h
  | cons b t =>
    have := hdrSize_pos
    simp only [heapSize]
    omega

theorem do_free_zero (b : Block) (rest : Heap) :
    do_free 0 (b :: rest) = (forwardFree b rest).1 :: (forwardFree b rest).2 := by
  simp [do_free]

theorem do_free_at_next (b c : Block) (rest' : Heap) :
    do_free (hdrSize + b.size) (b :: c :: rest') =
      if b.used = false then
        heap_merge_blocks b (forwardFree c rest').1 :: (forwardFree c rest').2
      else
        b :: (forwardFree c rest').1 :: (forwardFree c rest').2 := by
  have := hdrSize_pos
  simp only [do_free]
  rw [if_neg (by omega : ¬(hdrSize + b.size = 0))]
  rw [if_pos trivial]

theorem do_free_past_end (i : Nat) (b : Block) (h1 : i ≠ 0) :
    do_free i [b] = [b] := by
  have := hdrSize_pos
  simp only [do_free]
  rw [if_neg h1]
  by_cases h2 : i = hdrSize + b.size
  · rw [if_pos h2]
  · rw [if_neg h2]
    by_cases h3 : i < hdrSize + b.size
    · rw [if_pos h3]
    · rw [if_neg h3]

theorem do_free_inside (i : Nat) (b : Block) (rest : Heap)
    (h1 : i ≠ 0) (h2 : i ≠ hdrSize + b.size) (h3 : i < hdrSize + b.size) :
    do_free i (b :: rest) = b :: rest := by
  cases rest with
  | nil => exact do_free_past_end i b h1
  | cons c t =>
    simp only [do_free]
    rw [if_neg h1, if_neg h2, if_pos h3]

theorem do_free_succ (i : Nat) (b : Block) (rest : Heap) (h1 : hdrSize + b.size < i) :
    do_free i (b :: rest) = b :: do_free (i - (hdrSize + b.size)) rest := by
  have := hdrSize_pos
  cases rest with
  | nil =>
    rw [do_free_past_end i b (by omega)]
    cases h : do_free (i - (hdrSize + b.size)) ([] : Heap)
    · rfl
    · exact absurd h (by simp [do_free])
  | cons c t =>
    simp only [do_free]
    rw [if_neg (by omega : ¬(i = 0)), if_neg (by omega : ¬(i = hdrSize + b.size)),
      if_neg (by omega : ¬(i < hdrSize + b.size))]

/-- `do_free` at the offset of an actual block header: mark it free,
coalesce forward, then coalesce backward with the last block of the
prefix. -/
theorem do_free_char :
    ∀ (pre : Heap) (b : Block) (post : Heap),
      do_free (heapSize pre) (pre ++ b :: post) =
        backAttach pre (forwardFree b post).1 (forwardFree b post).2 := by
  intro pre
  induction pre with
  | nil =>
    intro b post
    simp only [heapSize, List.nil_append, do_free_zero, backAttach]
  | cons a pre ih =>
    intro b post
    have hpos := hdrSize_pos
    cases pre with
    | nil =>
      have h1 : heapSize [a] = hdrSize + a.size := by simp [heapSize]; omega
      rw [h1]
      simp only [List.cons_append, List.nil_append]
      rw [do_free_at_next a b post]
      simp only [backAttach]
    | cons x t =>
      have h2 : 0 < heapSize (x :: t) := heapSize_pos_of_ne_nil (by simp)
      have h3 : heapSize (a :: x :: t) = (a.size + hdrSize) + heapSize (x :: t) := by
        simp [heapSize]
      rw [h3]
      simp only [List.cons_append]
      rw [do_free_succ _ _ _ (by omega)]
      have h4 : a.size + hdrSize + heapSize (x :: t) - (hdrSize + a.size) = heapSize (x :: t) := by
        omega
      have ih' := ih b post
      simp only [List.cons_append] at ih'
      rw [h4, ih']
      simp only [backAttach]

/-- Every `do_free` call either hits a block boundary or does nothing:
the in-range offsets that are not the header of a current block leave the
list untouched in this model. -/
theorem do_free_cases :
    ∀ (h : Heap) (i : Nat),
      (∃ pre b post, h = pre ++ b :: post ∧ i = heapSize pre) ∨ do_free i h = h := by
  intro h
  induction h with
  | nil => intro i; right; rfl
  | cons b t ih =>
    intro i
    by_cases h0 : i = 0
    · exact Or.inl ⟨[], b, t, by simp, by simp [heapSize, h0]⟩
    by_cases h1 : i = hdrSize + b.size
    · cases t with
      | nil =>
        right
        rw [h1, do_free_past_end _ _ (by have := hdrSize_pos; omega)]
      | cons c t' =>
        exact Or.inl ⟨[b], c, t', by simp, by simp [heapSize]; omega⟩
    by_cases h2 : i < hdrSize + b.size
    · exact Or.inr (do_free_inside i b t h0 h1 h2)
    · rcases ih (i - (hdrSize + b.size)) with ⟨pre, bb, post, rfl, ho⟩ | hnop
      · refine Or.inl ⟨b :: pre, bb, post, by simp, ?_⟩
        simp only [heapSize]
        omega
      · right
        rw [do_free_succ i b t (by omega), hnop]

theorem backAttach_nil (b' : Block) (post' : Heap) :
    backAttach [] b' post' = b' :: post' := rfl

theorem backAttach_one (a : Block) (b' : Block) (post' : Heap) :
    backAttach [a] b' post' =
      if a.used = false then heap_merge_blocks a b' :: post' else a :: b' :: post' := by
  simp only [backAttach]

theorem backAttach_cons_cons (a x : Block) (t : Heap) (b' : Block) (post' : Heap) :
    backAttach (a :: x :: t) b' post' = a :: backAttach (x :: t) b' post' := by
  simp only [backAttach]

theorem forwardFree_sum (b : Block) (post : Heap) :
    (forwardFree b post).1.size + hdrSize + heapSize (forwardFree b post).2
      = (b.size + hdrSize) + heapSize post := by
  cases post with
  | nil => simp [forwardFree, markFree, heapSize]
  | cons c post' =>
    by_cases hcu : c.used = false
    · simp [forwardFree, hcu, heap_merge_blocks, markFree, heapSize]
      omega
    · simp [forwardFree, hcu, markFree, heapSize]

theorem backAttach_sum :
    ∀ (pre : Heap) (b' : Block) (post' : Heap),
      heapSize (backAttach pre b' post') = heapSize pre + (b'.size + hdrSize) + heapSize post' := by
  intro pre
  induction pre with
  | nil => intro b' post'; simp [backAttach, heapSize]
  | cons a pre ih =>
    intro b' post'
    cases pre with
    | nil =>
      rw [backAttach_one]
      by_cases hau : a.used = false
      · rw [if_pos hau]
        simp [heap_merge_blocks, heapSize]
        omega
      · rw [if_neg hau]
        simp [heapSize]
        omega
    | cons x t =>
      rw [backAttach_cons_cons]
      simp only [heapSize, ih]
      omega

theorem do_free_sum (i : Nat) (h : Heap) : heapSize (do_free i h) = heapSize h := by
  rcases do_free_cases h i with ⟨pre, b, post, rfl, rfl⟩ | hnop
  · rw [do_free_char, backAttach_sum, heapSize_append]
    have := forwardFree_sum b post
    simp only [heapSize]
    omega
  · rw [hnop]

theorem free_sum (p : Nat) (h : Heap) : heapSize (free p h) = heapSize h := by
  simp only [free]
  split
  · rfl
  · exact do_free_sum _ _

/-- The Σ(size + header) = 256 invariant over all contract-respecting
executions. -/
theorem heapSize_reachable : ∀ {h : Heap}, Reachable h → heapSize h = bufSize := by
  intro h r
  induction r with
  | init => decide
  | malloc n r ih => rw [malloc_sum]; exact ih
  | free p r hv ih => rw [free_sum]; exact ih

theorem used_true_of_not_false {b : Bool} (h : ¬b = false) : b = true := by
  cases b
  · exact absurd rfl h
  · rfl

theorem forwardFree_used (b : Block) (post : Heap) :
    (forwardFree b post).1.used = false := by
  cases post with
  | nil => rfl
  | cons c post' =>
    by_cases hcu : c.used = false
    · simp [forwardFree, hcu, heap_merge_blocks, markFree]
    · simp [forwardFree, hcu, markFree]

theorem backAttach_ne_nil (pre : Heap) (b' : Block) (post' : Heap) :
    backAttach pre b' post' ≠ [] := by
  cases pre with
  | nil => simp [backAttach_nil]
  | cons a t =>
    cases t with
    | nil =>
      rw [backAttach_one]
      split <;> simp
    | cons x t' =>
      rw [backAttach_cons_cons]
      simp

/-- After the forward-coalescing step the list that follows the freed
block is still free of adjacent free pairs, and its first block (the
freed block's new `next`) is used. -/
theorem forwardFree_chain (b : Block) (post : Heap)
    (hc : List.Chain' (fun a b => a.used = true ∨ b.used = true) (b :: post)) :
    List.Chain' (fun a b => a.used = true ∨ b.used = true) (forwardFree b post).2 ∧
      ∀ y, ((forwardFree b post).2).head? = some y → y.used = true := by
  cases post with
  | nil => simp [forwardFree, markFree]
  | cons c t =>
    by_cases hcu : c.used = false
    · have h2 : List.Chain' (fun a b => a.used = true ∨ b.used = true) (c :: t) := hc.tail
      constructor
      · simp only [forwardFree, hcu, if_true, eq_self_iff_true, ite_true]
        exact h2.tail
      · intro y hy
        simp only [forwardFree, hcu, if_true, eq_self_iff_true, ite_true] at hy
        cases t with
        | nil => simp at hy
        | cons z t' =>
          simp at hy
          subst hy
          rcases (List.chain'_cons.mp h2).1 with h3 | h3
          · rw [hcu] at h3; cases h3
          · exact h3
    · constructor
      · simp only [forwardFree, if_neg hcu]
        exact hc.tail
      · intro y hy
        simp only [forwardFree, if_neg hcu] at hy
        simp at hy
        rw [← hy]
        exact used_true_of_not_false hcu

/-- The backward-coalescing step keeps the list free of adjacent free
pairs, given that the block being attached is free and the list after it
starts with a used block; the head of the result keeps the used flag of
the head of the prefix. -/
theorem backAttach_chain (b' : Block) (post' : Heap)
    (_hb : b'.used = false)
    (hcp : List.Chain' (fun a b => a.used = true ∨ b.used = true) post')
    (hh : ∀ y, post'.head? = some y → y.used = true) :
    ∀ pre, List.Chain' (fun a b => a.used = true ∨ b.used = true) pre →
      List.Chain' (fun a b => a.used = true ∨ b.used = true) (backAttach pre b' post') ∧
      ∀ x xs y ys, pre = x :: xs → backAttach pre b' post' = y :: ys → y.used = x.used := by
  intro pre
  induction pre with
  | nil =>
    intro _
    refine ⟨?_, ?_⟩
    · rw [backAttach_nil, List.chain'_cons']
      exact ⟨fun y hy => Or.inr (hh y hy), hcp⟩
    · intro x xs y ys hx _
      cases hx
  | cons a pre ih =>
    intro hca
    cases pre with
    | nil =>
      by_cases hau : a.used = false
      · refine ⟨?_, ?_⟩
        · rw [backAttach_one, if_pos hau, List.chain'_cons']
          exact ⟨fun y hy => Or.inr (hh y hy), hcp⟩
        · intro x xs y ys hx hy
          rw [backAttach_one, if_pos hau] at hy
          cases hx
          cases hy
          rfl
      · refine ⟨?_, ?_⟩
        · rw [backAttach_one, if_neg hau, List.chain'_cons']
          refine ⟨?_, ?_⟩
          · intro y hy
            simp at hy
            rw [← hy]
            exact Or.inl (used_true_of_not_false hau)
          · rw [List.chain'_cons']
            exact ⟨fun y hy => Or.inr (hh y hy), hcp⟩
        · intro x xs y ys hx hy
          rw [backAttach_one, if_neg hau] at hy
          cases hx
          cases hy
          rfl
    | cons w t =>
      have hct : List.Chain' (fun a b => a.used = true ∨ b.used = true) (w :: t) := hca.tail
      obtain ⟨hchain, hhead⟩ := ih hct
      refine ⟨?_, ?_⟩
      · rw [backAttach_cons_cons, List.chain'_cons']
        refine ⟨?_, hchain⟩
        intro y hy
        cases e : backAttach (w :: t) b' post' with
        | nil => exact absurd e (backAttach_ne_nil _ _ _)
        | cons y0 ys =>
          rw [e] at hy
          simp at hy
          subst hy
          have hflag : y0.used = w.used := hhead w t y0 ys rfl e
          rcases (List.chain'_cons.mp hca).1 with h3 | h3
          · exact Or.inl h3
          · exact Or.inr (by rw [hflag]; exact h3)
      · intro x xs y ys hx hy
        rw [backAttach_cons_cons] at hy
        cases hx
        cases hy
        rfl

/-- `do_free` preserves the no-adjacent-free-blocks invariant, for every
offset. -/
theorem do_free_noAdj (i : Nat) (h : Heap) (hc : NoAdjFree h) : NoAdjFree (do_free i h) := by
  rcases do_free_cases h i with ⟨pre, b, post, rfl, rfl⟩ | hnop
  · rw [do_free_char]
    unfold NoAdjFree at *
    obtain ⟨hcpre, hcbp, _⟩ := List.chain'_append.mp hc
    obtain ⟨hfc, hfh⟩ := forwardFree_chain b post hcbp
    exact (backAttach_chain _ _ (forwardFree_used b post) hfc hfh pre hcpre).1
  · rw [hnop]
    exact hc

theorem free_noAdj (p : Nat) (h : Heap) (hc : NoAdjFree h) : NoAdjFree (free p h) := by
  simp only [free]
  split
  · exact hc
  · exact do_free_noAdj _ _ hc

theorem mallocResult_head_used (b : Block) (n : Nat) :
    ∀ y, (mallocResult b n).head? = some y → y.used = true := by
  intro y hy
  unfold mallocResult at hy
  split at hy <;> (simp at hy; rw [← hy])

theorem mallocResult_chain (b : Block) (n : Nat) (post : Heap)
    (hbu : b.used = false)
    (hc : List.Chain' (fun a b => a.used = true ∨ b.used = true) (b :: post)) :
    List.Chain' (fun a b => a.used = true ∨ b.used = true) (mallocResult b n ++ post) := by
  unfold mallocResult
  split
  · simp only [List.cons_append, List.nil_append]
    rw [List.chain'_cons]
    refine ⟨Or.inl rfl, ?_⟩
    rw [List.chain'_cons']
    refine ⟨?_, hc.tail⟩
    intro y hy
    cases post with
    | nil => simp at hy
    | cons z t =>
      simp at hy
      subst hy
      rcases (List.chain'_cons.mp hc).1 with h3 | h3
      · rw [hbu] at h3; cases h3
      · exact Or.inr h3
  · simp only [List.cons_append, List.nil_append]
    rw [List.chain'_cons']
    exact ⟨fun y hy => Or.inl rfl, hc.tail⟩

theorem malloc_noAdj (n : Nat) (h : Heap) (hc : NoAdjFree h) : NoAdjFree (malloc n h).2 := by
  unfold malloc
  cases he : do_malloc n h with
  | none => exact hc
  | some p =>
    obtain ⟨o, h'⟩ := p
    obtain ⟨pre, b, post, rfl, hpre, hbu, hbs, rfl, rfl⟩ := do_malloc_eq_some n _ _ _ he
    unfold NoAdjFree at *
    obtain ⟨hcpre, hcbp, hlink⟩ := List.chain'_append.mp hc
    rw [List.append_assoc, List.chain'_append]
    refine ⟨hcpre, mallocResult_chain b n post hbu hcbp, ?_⟩
    intro x hx y hy
    have hy2 : (mallocResult b n).head? = some y := by
      cases hm : mallocResult b n with
      | nil =>
        exact absurd hm (by unfold mallocResult; split <;> simp)
      | cons z t =>
        rw [hm] at hy
        simp at hy
        simp [hy]
    exact Or.inr (mallocResult_head_used b n y hy2)

/-- The no-adjacent-free-blocks invariant over all contract-respecting
executions. -/
theorem noAdj_reachable : ∀ {h : Heap}, Reachable h → NoAdjFree h := by
  intro h r
  induction r with
  | init => exact List.chain'_singleton _
  | malloc n r ih => exact malloc_noAdj _ _ ih
  | free p r hv ih => exact free_noAdj _ _ ih

/-!
## Offsets and payload spans
-/

theorem withOffs_mem_bound :
    ∀ (h : Heap) (o : Nat) (x : Nat × Block), x ∈ withOffs o h →
      o ≤ x.1 ∧ x.1 + (hdrSize + x.2.size) ≤ o + heapSize h := by
  intro h
  induction h with
  | nil => intro o x hx; simp [withOffs] at hx
  | cons b t ih =>
    intro o x hx
    simp only [withOffs, List.mem_cons] at hx
    rcases hx with rfl | hx
    · simp only [heapSize]
      omega
    · have := ih (o + (hdrSize + b.size)) x hx
      simp only [heapSize]
      omega

theorem withOffs_pairwise :
    ∀ (h : Heap) (o : Nat),
      List.Pairwise (fun x y => x.1 + hdrSize + x.2.size ≤ y.1) (withOffs o h) := by
  intro h
  induction h with
  | nil => intro o; simp [withOffs]
  | cons b t ih =>
    intro o
    simp only [withOffs]
    rw [List.pairwise_cons]
    refine ⟨?_, ih _⟩
    intro y hy
    have := (withOffs_mem_bound t (o + (hdrSize + b.size)) y hy).1
    show o + hdrSize + b.size ≤ y.1
    omega

/-- The payload address ranges of the used blocks, in address order:
each used block at offset `o` occupies `[heapStart+o+hdrSize,
heapStart+o+hdrSize+size)`. -/
def usedSpans (h : Heap) : List (Nat × Nat) :=
  ((withOffs 0 h).filter (fun ob => ob.2.used)).map
    (fun ob => (heapStart + ob.1 + hdrSize, heapStart + ob.1 + hdrSize + ob.2.size))

/-- `backAttach` only inspects the last block of the prefix. -/
theorem backAttach_append :
    ∀ (pre : Heap) (a : Block) (b' : Block) (post' : Heap),
      backAttach (pre ++ [a]) b' post' = pre ++ backAttach [a] b' post' := by
  intro pre
  induction pre with
  | nil => intro a b' post'; simp
  | cons x t ih =>
    intro a b' post'
    cases e : t ++ [a] with
    | nil => exact absurd e (by simp)
    | cons z zs =>
      have h1 : (x :: t) ++ [a] = x :: z :: zs := by rw [List.cons_append, e]
      rw [h1, backAttach_cons_cons, ← e, ih]
      rfl

/-!
## Claim theorems
-/

/-- C1: for every reachable heap state the sum over all blocks of
`size + sizeof(heap_block)` equals the 256-byte backing-store size;
`heap_init` establishes it and `heap_split_block` / `heap_merge_blocks`
preserve the footprint of the blocks they rewrite. -/
theorem heap_sum_invariant :
    heapSize heap_init = bufSize
    ∧ (∀ h, Reachable h → heapSize h = bufSize)
    ∧ (∀ (b : Block) (n : Nat), n + hdrSize ≤ b.size →
        ((heap_split_block b n).1.size + hdrSize) + ((heap_split_block b n).2.size + hdrSize)
          = b.size + hdrSize)
    ∧ (∀ a b : Block,
        (heap_merge_blocks a b).size + hdrSize = (a.size + hdrSize) + (b.size + hdrSize)) := by
  refine ⟨by decide, fun h r => heapSize_reachable r, ?_, ?_⟩
  · intro b n hn
    simp only [heap_split_block]
    omega
  · intro a b
    simp only [heap_merge_blocks]
    omega

theorem heap_sum_invariant_witness :
    heapSize (free (heapStart + hdrSize) (malloc 16 heap_init).2) = bufSize
    ∧ ((16 : Nat) + hdrSize ≤ 100
      ∧ ((heap_split_block ⟨false, 100⟩ 16).1.size + hdrSize)
          + ((heap_split_block ⟨false, 100⟩ 16).2.size + hdrSize) = 100 + hdrSize) := by
  refine ⟨?_, by decide, ?_⟩
  · exact heap_sum_invariant.2.1 _
      (Reachable.free _ (Reachable.malloc 16 Reachable.init) (by decide))
  · exact heap_sum_invariant.2.2.1 ⟨false, 100⟩ 16 (by decide)

/-- C3: `do_malloc` selects the first unused block of sufficient size in
address order; it splits exactly when the block size strictly exceeds the
request plus `2*sizeof(heap_block)`, and otherwise takes the whole block
with its size unchanged; `malloc` returns that block's payload address. -/
theorem do_malloc_first_fit_spec :
    ∀ (n : Nat) (pre : Heap) (b : Block) (post : Heap),
      (∀ c ∈ pre, c.used = true ∨ c.size < n) → b.used = false → n ≤ b.size →
      do_malloc n (pre ++ b :: post) = some (heapSize pre, pre ++ mallocResult b n ++ post)
      ∧ (malloc n (pre ++ b :: post)).1 = some (heapStart + heapSize pre + hdrSize)
      ∧ (n + 2 * hdrSize < b.size →
          mallocResult b n = [⟨true, n⟩, ⟨false, b.size - n - hdrSize⟩])
      ∧ (¬(n + 2 * hdrSize < b.size) → mallocResult b n = [⟨true, b.size⟩]) := by
  intro n pre b post hpre hbu hbs
  have h1 := do_malloc_spec n pre b post hpre hbu hbs
  refine ⟨h1, ?_, ?_, ?_⟩
  · unfold malloc
    rw [h1]
  · intro hs; simp [mallocResult, if_pos hs]
  · intro hs; simp [mallocResult, if_neg hs]

theorem do_malloc_first_fit_spec_witness :
    do_malloc 8 ([⟨true, 16⟩] ++ ⟨false, 160⟩ :: [])
      = some (heapSize [⟨true, 16⟩], [⟨true, 16⟩] ++ mallocResult ⟨false, 160⟩ 8 ++ []) := by
  exact (do_malloc_first_fit_spec 8 [⟨true, 16⟩] ⟨false, 160⟩ []
    (by decide) rfl (by decide)).1

theorem malloc_no_fit (n : Nat) (h : Heap)
    (hall : ∀ b ∈ h, b.used = true ∨ b.size < n) : malloc n h = (none, h) := by
  unfold malloc
  rw [(do_malloc_none_iff n h).mpr hall]

/-- C5: the growth hook always declines, and when no block is both unused
and large enough, `malloc` returns the `NULL` sentinel with the heap
state (block list, sizes, used flags) unchanged. -/
theorem malloc_exhaustion_null :
    expand_heap = false
    ∧ ∀ (n : Nat) (h : Heap), (∀ b ∈ h, b.used = true ∨ b.size < n) →
        malloc n h = (none, h) :=
  ⟨rfl, malloc_no_fit⟩

theorem malloc_exhaustion_null_witness :
    malloc 1 [⟨true, 224⟩] = (none, [⟨true, 224⟩]) :=
  malloc_exhaustion_null.2 1 [⟨true, 224⟩] (by decide)

/-- C10: a zero-size request is never rejected while a free block exists:
`malloc(0)` returns the payload address of the first free block, which is
split down to payload size 0 exactly when its size exceeds
`2*sizeof(heap_block)` and is otherwise consumed whole. -/
theorem malloc_zero_first_free :
    (∀ h : Heap, (∃ b ∈ h, b.used = false) → (malloc 0 h).1 ≠ none)
    ∧ ∀ (pre : Heap) (b : Block) (post : Heap),
        (∀ c ∈ pre, c.used = true) → b.used = false →
        (malloc 0 (pre ++ b :: post)).1 = some (heapStart + heapSize pre + hdrSize)
        ∧ (malloc 0 (pre ++ b :: post)).2
            = pre ++ (if 2 * hdrSize < b.size then
                [⟨true, 0⟩, ⟨false, b.size - hdrSize⟩] else [⟨true, b.size⟩]) ++ post := by
  constructor
  · intro h hex hnone
    obtain ⟨b, hb, hbu⟩ := hex
    unfold malloc at hnone
    cases he : do_malloc 0 h with
    | some p => rw [he] at hnone; simp at hnone
    | none =>
      rcases (do_malloc_none_iff 0 h).mp he b hb with h1 | h1
      · rw [hbu] at h1; cases h1
      · omega
  · intro pre b post hpre hbu
    have hspec := do_malloc_spec 0 pre b post (fun c hc => Or.inl (hpre c hc)) hbu (Nat.zero_le _)
    have hmr : mallocResult b 0
        = if 2 * hdrSize < b.size then [⟨true, 0⟩, ⟨false, b.size - hdrSize⟩]
          else [⟨true, b.size⟩] := by
      unfold mallocResult
      simp
    constructor
    · unfold malloc
      rw [hspec]
    · unfold malloc
      rw [hspec, ← hmr]

theorem malloc_zero_first_free_witness :
    (malloc 0 ([⟨true, 16⟩] ++ ⟨false, 96⟩ :: [⟨true, 48⟩])).1
      = some (heapStart + heapSize [⟨true, 16⟩] + hdrSize) :=
  ((malloc_zero_first_free.2 [⟨true, 16⟩] ⟨false, 96⟩ [⟨true, 48⟩] (by decide) rfl)).1

/-- C2: immediately after any `free` call on a reachable state the list
has no two address-adjacent free blocks; moreover, freeing a used block
lying between two free neighbours (forward merge, then backward merge)
produces one free block spanning all three. -/
theorem free_no_adjacent_free :
    (∀ (h : Heap) (p : Nat), Reachable h → NoAdjFree (free p h))
    ∧ ∀ (pre : Heap) (a b c : Block) (post : Heap),
        a.used = false → b.used = true → c.used = false →
        heapSize pre + a.size + hdrSize < bufSize →
        free (heapStart + heapSize (pre ++ [a]) + hdrSize) (pre ++ a :: b :: c :: post)
          = pre ++ ⟨false, a.size + b.size + c.size + 2 * hdrSize⟩ :: post := by
  constructor
  · intro h p r
    exact free_noAdj p h (noAdj_reachable r)
  · intro pre a b c post hau hbu hcu hsz
    have hpa : heapSize (pre ++ [a]) = heapSize pre + a.size + hdrSize := by
      rw [heapSize_append]
      simp [heapSize]
      omega
    have hpos := hdrSize_pos
    unfold free
    rw [if_neg (by
      simp only [heapEnd]
      omega)]
    have hoff : heapStart + heapSize (pre ++ [a]) + hdrSize - hdrSize - heapStart
        = heapSize (pre ++ [a]) := by omega
    rw [hoff]
    have hlist : pre ++ a :: b :: c :: post = (pre ++ [a]) ++ b :: c :: post := by
      simp
    rw [hlist, do_free_char]
    have hff : forwardFree b (c :: post)
        = (⟨false, b.size + c.size + hdrSize⟩, post) := by
      simp [forwardFree, hcu, heap_merge_blocks, markFree]
    rw [hff]
    rw [backAttach_append, backAttach_one, if_pos hau]
    simp only [heap_merge_blocks]
    have h2 : a.size + (b.size + c.size + hdrSize) + hdrSize
        = a.size + b.size + c.size + 2 * hdrSize := by omega
    rw [h2, hau]

theorem free_no_adjacent_free_witness :
    NoAdjFree (free 0 heap_init)
    ∧ free (heapStart + heapSize ([] ++ [(⟨false, 16⟩ : Block)]) + hdrSize)
        ([] ++ (⟨false, 16⟩ : Block) :: ⟨true, 16⟩ :: ⟨false, 16⟩ :: [])
        = [] ++ (⟨false, (16 : Nat) + 16 + 16 + 2 * hdrSize⟩ : Block) :: [] := by
  refine ⟨free_no_adjacent_free.1 heap_init 0 Reachable.init, ?_⟩
  exact free_no_adjacent_free.2 [] ⟨false, 16⟩ ⟨true, 16⟩ ⟨false, 16⟩ []
    rfl rfl rfl (by decide)

/-- C4: on every reachable state the payload spans of the used blocks
are pairwise disjoint (each ends before the next begins) and lie inside
the backing store `[heap_start, heap_end)`. -/
theorem live_allocations_disjoint :
    ∀ h : Heap, Reachable h →
      List.Pairwise (fun s t => s.2 ≤ t.1) (usedSpans h)
      ∧ ∀ sp ∈ usedSpans h, heapStart + hdrSize ≤ sp.1 ∧ sp.2 ≤ heapEnd := by
  intro h r
  constructor
  · have hp := (withOffs_pairwise h 0).filter (fun ob => ob.2.used)
    exact hp.map _ (fun x y hxy => by
      show heapStart + x.1 + hdrSize + x.2.size ≤ heapStart + y.1 + hdrSize
      omega)
  · intro sp hsp
    obtain ⟨ob, hob, rfl⟩ := List.mem_map.mp hsp
    have hob2 : ob ∈ withOffs 0 h := List.mem_of_mem_filter hob
    have hb := withOffs_mem_bound h 0 ob hob2
    have hsum := heapSize_reachable r
    have hend : heapEnd = heapStart + bufSize := rfl
    constructor
    · omega
    · omega

theorem live_allocations_disjoint_witness :
    List.Pairwise (fun s t => s.2 ≤ t.1) (usedSpans (malloc 16 heap_init).2) :=
  (live_allocations_disjoint _ (Reachable.malloc 16 Reachable.init)).1

/-- C8: allocate A then B from a fresh heap, release A, then request at
most A's size: `malloc` hands back exactly A's old payload address. -/
theorem first_fit_reuse :
    ∀ (s1 s2 s3 a pb : Nat) (h1 h2 : Heap),
      malloc s1 heap_init = (some a, h1) →
      malloc s2 h1 = (some pb, h2) →
      s3 ≤ s1 →
      (malloc s3 (free a h2)).1 = some a := by
  intro s1 s2 s3 a pb h1 h2 e1 e2 hle
  have hh : hdrSize = 32 := rfl
  have hbuf : bufSize = 256 := rfl
  have hinit : heap_init = [⟨false, 224⟩] := by decide
  by_cases hs1 : s1 ≤ 224
  · by_cases hsp : s1 + 2 * hdrSize < 224
    · -- the first allocation splits the initial block
      have hd1 : do_malloc s1 heap_init = some (0, [⟨true, s1⟩, ⟨false, 224 - s1 - hdrSize⟩]) := by
        rw [hinit]
        have hns := do_malloc_spec s1 [] ⟨false, 224⟩ [] (by simp) rfl (by simpa using hs1)
        simpa [mallocResult, hsp, heapSize] using hns
      have ha : heapStart + 0 + hdrSize = a ∧ [⟨true, s1⟩, ⟨false, 224 - s1 - hdrSize⟩] = h1 := by
        unfold malloc at e1
        rw [hd1] at e1
        simpa using e1
      obtain ⟨ha1, ha2⟩ := ha
      subst ha1
      subst ha2
      by_cases hs2 : s2 ≤ 224 - s1 - hdrSize
      · have hd2 : do_malloc s2 [⟨true, s1⟩, ⟨false, 224 - s1 - hdrSize⟩]
            = some (heapSize [⟨true, s1⟩],
                [⟨true, s1⟩] ++ mallocResult ⟨false, 224 - s1 - hdrSize⟩ s2 ++ []) := by
          have hns := do_malloc_spec s2 [⟨true, s1⟩] ⟨false, 224 - s1 - hdrSize⟩ []
            (by simp) rfl (by simpa using hs2)
          simpa using hns
        have hb2 : heapStart + heapSize [(⟨true, s1⟩ : Block)] + hdrSize = pb ∧
            ⟨true, s1⟩ :: mallocResult ⟨false, 224 - s1 - hdrSize⟩ s2 = h2 := by
          unfold malloc at e2
          rw [hd2] at e2
          simpa using e2
        obtain ⟨-, hb2⟩ := hb2
        subst hb2
        have hfree : free (heapStart + 0 + hdrSize)
            (⟨true, s1⟩ :: mallocResult ⟨false, 224 - s1 - hdrSize⟩ s2)
            = ⟨false, s1⟩ :: mallocResult ⟨false, 224 - s1 - hdrSize⟩ s2 := by
          simp only [free]
          rw [if_neg (by
            have hend : heapEnd = heapStart + bufSize := rfl
            omega)]
          have hoff : heapStart + 0 + hdrSize - hdrSize - heapStart = 0 := by omega
          rw [hoff]
          cases hm : mallocResult ⟨false, 224 - s1 - hdrSize⟩ s2 with
          | nil => exact absurd hm (by unfold mallocResult; split <;> simp)
          | cons z t =>
            have hz : z.used = true :=
              mallocResult_head_used _ s2 z (by rw [hm]; rfl)
            have hzz : ¬z.used = false := by rw [hz]; simp
            rw [do_free_zero]
            simp [forwardFree, hzz, markFree]
        rw [hfree]
        have hdm := do_malloc_spec s3 [] ⟨false, s1⟩
          (mallocResult ⟨false, 224 - s1 - hdrSize⟩ s2) (by simp) rfl (by simpa using hle)
        simp only [List.nil_append] at hdm
        unfold malloc
        rw [hdm]
        simp [heapSize]
      · exfalso
        have hn : malloc s2 [⟨true, s1⟩, ⟨false, 224 - s1 - hdrSize⟩]
            = (none, [⟨true, s1⟩, ⟨false, 224 - s1 - hdrSize⟩]) := by
          apply malloc_no_fit _ _
          intro c hc
          simp at hc
          rcases hc with rfl | rfl
          · left; rfl
          · right
            show 224 - s1 - hdrSize < s2
            omega
        rw [hn] at e2
        simp at e2
    · -- no split: the whole store becomes one used block, B cannot fit
      exfalso
      have hd1 : do_malloc s1 heap_init = some (0, [⟨true, 224⟩]) := by
        rw [hinit]
        have hns := do_malloc_spec s1 [] ⟨false, 224⟩ [] (by simp) rfl (by simpa using hs1)
        simpa [mallocResult, hsp, heapSize] using hns
      have hb1 : heapStart + 0 + hdrSize = a ∧ [(⟨true, 224⟩ : Block)] = h1 := by
        unfold malloc at e1
        rw [hd1] at e1
        simpa using e1
      obtain ⟨-, hb1⟩ := hb1
      subst hb1
      have hn : malloc s2 [(⟨true, 224⟩ : Block)] = (none, [(⟨true, 224⟩ : Block)]) := by
        apply malloc_no_fit _ _
        intro c hc
        simp at hc
        subst hc
        left; rfl
      rw [hn] at e2
      simp at e2
  · exfalso
    have hn : malloc s1 heap_init = (none, heap_init) := by
      apply malloc_no_fit _ _
      intro c hc
      rw [hinit] at hc
      simp at hc
      subst hc
      right
      show (224 : Nat) < s1
      omega
    rw [hn] at e1
    simp at e1

theorem first_fit_reuse_witness :
    (malloc 8 (free (heapStart + 0 + hdrSize)
        [⟨true, 16⟩, ⟨true, 16⟩, ⟨false, 128⟩])).1 = some (heapStart + 0 + hdrSize) :=
  first_fit_reuse 16 16 8 (heapStart + 0 + hdrSize) (heapStart + 48 + hdrSize)
    [⟨true, 16⟩, ⟨false, 176⟩] [⟨true, 16⟩, ⟨true, 16⟩, ⟨false, 128⟩]
    (by decide) (by decide) (by decide)

/-!
## Corrected claims: double free, foreign pointers, coalescing size
-/

theorem withOffs_decomp :
    ∀ (h : Heap) (o0 : Nat) (ob : Nat × Block), ob ∈ withOffs o0 h →
      ∃ pre post, h = pre ++ ob.2 :: post ∧ o0 + heapSize pre = ob.1 := by
  intro h
  induction h with
  | nil => intro o0 ob hob; simp [withOffs] at hob
  | cons b t ih =>
    intro o0 ob hob
    simp only [withOffs, List.mem_cons] at hob
    rcases hob with rfl | hob
    · exact ⟨[], t, rfl, by simp [heapSize]⟩
    · obtain ⟨pre, post, rfl, hoff⟩ := ih _ ob hob
      refine ⟨b :: pre, post, rfl, ?_⟩
      simp only [heapSize]
      omega

/-- When every block before the target is used (in particular the
target's `previous`), the backward step changes nothing. -/
theorem backAttach_id :
    ∀ (pre : Heap) (b' : Block) (post' : Heap),
      (∀ x, pre.getLast? = some x → x.used = true) →
      backAttach pre b' post' = pre ++ b' :: post' := by
  intro pre
  induction pre with
  | nil => intro b' post' _; rfl
  | cons a t ih =>
    intro b' post' hlast
    cases t with
    | nil =>
      have ha : a.used = true := hlast a rfl
      rw [backAttach_one, if_neg (by rw [ha]; simp)]
      rfl
    | cons x t' =>
      rw [backAttach_cons_cons, ih b' post' (fun y hy => hlast y (by
        rw [List.getLast?_cons_cons]
        exact hy))]
      rfl

/-- C6 (amended): releasing a pointer whose block header is still present
in the list and already marked unused is a silent no-op on every
reachable state.  (When the header was absorbed by backward coalescing,
the C code instead follows the stale header's links — see the
counterexample.) -/
theorem free_already_free_noop :
    ∀ (h : Heap) (p : Nat), Reachable h → FreePtr h p → free p h = h := by
  intro h p r hfp
  obtain ⟨ob, hmem, hobu, rfl⟩ := hfp
  obtain ⟨pre, post, rfl, hoff⟩ := withOffs_decomp h 0 ob hmem
  have hsum := heapSize_reachable r
  rw [heapSize_append] at hsum
  have hsz : heapSize (ob.2 :: post) = ob.2.size + hdrSize + heapSize post := by
    simp [heapSize]
  have hpos := hdrSize_pos
  have hend : heapEnd = heapStart + bufSize := rfl
  simp only [free]
  rw [if_neg (by omega)]
  rw [show heapStart + ob.1 + hdrSize - hdrSize - heapStart = heapSize pre from by omega]
  rw [do_free_char]
  have hna : List.Chain' (fun a b => a.used = true ∨ b.used = true) (pre ++ ob.2 :: post) :=
    noAdj_reachable r
  obtain ⟨hc1, hc2, hlink⟩ := List.chain'_append.mp hna
  have hmark : markFree ob.2 = ob.2 := by
    cases hb : ob.2 with
    | mk u s =>
      rw [hb] at hobu
      simp at hobu
      simp [markFree, hobu]
  have hff : forwardFree ob.2 post = (ob.2, post) := by
    cases post with
    | nil => simp [forwardFree, hmark]
    | cons c post2 =>
      have hcu : c.used = true := by
        rcases (List.chain'_cons.mp hc2).1 with h1 | h1
        · rw [hobu] at h1; cases h1
        · exact h1
      simp [forwardFree, hmark, hcu]
  rw [hff]
  exact backAttach_id pre ob.2 post (fun x hx => by
    rcases hlink x hx ob.2 (by simp) with h1 | h1
    · exact h1
    · rw [hobu] at h1; cases h1)

theorem free_already_free_noop_witness :
    free (heapStart + 0 + hdrSize) heap_init = heap_init :=
  free_already_free_noop heap_init (heapStart + 0 + hdrSize) Reachable.init (by decide)

/-- The state after: `heap_init`, `malloc(16)` twice (A at payload
`heapStart+32`, B at payload `heapStart+80`), `free(A)`, `free(B)`.
The second free coalesces B forward with the trailing free block and
backward into A's block, leaving one 224-byte free block — and B's stale
header bytes behind inside its payload. -/
def doubleFreeState : MemModel.MState :=
  MemModel.free
    (MemModel.free
      (MemModel.malloc (MemModel.malloc MemModel.heap_init 16).2 16).2
      (heapStart + 32))
    (heapStart + 80)

/-- C6 counterexample: `free` on the already-released pointer
`heapStart + 80` is not a no-op: the stale header at `heapStart + 48`
still records `previous = heapStart`, `size = 176`, so the C code merges
the (free) first block with the stale block again, inflating the first
block's size from 224 to 432 — the block list changes. -/
theorem double_free_corrupts :
    (MemModel.readH doubleFreeState heapStart).size = 224
    ∧ MemModel.free doubleFreeState (heapStart + 80) ≠ doubleFreeState
    ∧ (MemModel.readH (MemModel.free doubleFreeState (heapStart + 80)) heapStart).size = 432 := by
  decide

/-- The state after `malloc(224)` consumes the whole store (payload
`[heapStart+32, heapStart+256)`) and the client stores data of its own at
`heapStart + 224`, inside its allocation. -/
def foreignPtrState : MemModel.MState :=
  MemModel.clientWrite (MemModel.malloc MemModel.heap_init 224).2 (heapStart + 224)
    ⟨true, 7, 0, 0⟩

/-- C7 counterexample: the pointer `heapStart + bufSize` (= `heap_end`)
lies outside `[heap_start, heap_end)`, yet `free` does not treat it as a
no-op: the guard checks the *header* address `ptr - sizeof(heap_block)`,
which is `heapStart + 224` — inside the store, in the middle of the live
allocation's payload — so the code stores `used = false` there and
clobbers the client's data. -/
theorem free_foreign_end_clobbers :
    (heapStart + bufSize < heapStart ∨ heapEnd ≤ heapStart + bufSize)
    ∧ (MemModel.readH foreignPtrState heapStart).used = true
    ∧ heapStart + hdrSize ≤ heapStart + 224
    ∧ heapStart + 224 + hdrSize
        ≤ heapStart + hdrSize + (MemModel.readH foreignPtrState heapStart).size
    ∧ MemModel.free foreignPtrState (heapStart + bufSize) ≠ foreignPtrState
    ∧ MemModel.readH (MemModel.free foreignPtrState (heapStart + bufSize)) (heapStart + 224)
        ≠ MemModel.readH foreignPtrState (heapStart + 224) := by
  decide

/-- C7 (amended): `free(p)` is a guaranteed no-op exactly when the
computed header address `p - sizeof(heap_block)` falls outside
`[heap_start, heap_end)` — equivalently when `p` lies outside
`[heap_start + sizeof(heap_block), heap_end + sizeof(heap_block))`; such
calls leave the entire state unchanged in both models. -/
theorem free_guard_noop :
    ∀ p : Nat, (p - hdrSize < heapStart ∨ heapEnd ≤ p - hdrSize) →
      (∀ h : Heap, free p h = h) ∧ (∀ s : MemModel.MState, MemModel.free s p = s) := by
  intro p hp
  constructor
  · intro h
    simp only [free]
    rw [if_pos hp]
  · intro s
    simp only [MemModel.free]
    rw [if_pos hp]

theorem free_guard_noop_witness :
    free 0 heap_init = heap_init
    ∧ MemModel.free MemModel.heap_init 0 = MemModel.heap_init :=
  ⟨(free_guard_noop 0 (by decide)).1 heap_init,
    (free_guard_noop 0 (by decide)).2 MemModel.heap_init⟩

/-- C9 counterexample: from a fresh heap, allocate A (S1 = 16) and B
(S2 = 16) — address-adjacent — then release A, then B.  The second free
also absorbs the trailing 128-byte free block, so the single resulting
free block has size 224, not `S1 + S2 + sizeof(heap_block)` = 64; no
block of size 64 exists. -/
theorem coalesce_size_counterexample :
    free (heapStart + 80) (free (heapStart + 32) (malloc 16 (malloc 16 heap_init).2).2)
      = [⟨false, 224⟩]
    ∧ ∀ b ∈ free (heapStart + 80) (free (heapStart + 32) (malloc 16 (malloc 16 heap_init).2).2),
        b.size ≠ 16 + 16 + hdrSize := by
  decide

/-- C9 (amended): after releasing address-adjacent A then B, a single
free block covers the range A and B occupied.  Its size is exactly
`S1 + S2 + sizeof(heap_block)` when B is the last block or is followed by
a used block; when a free block follows B, the forward merge absorbs it
too and the size is `S1 + S2 + that block's size + 2*sizeof(heap_block)`. -/
theorem coalesce_after_free_free :
    ∀ (s1 s2 : Nat) (post : Heap), s1 + hdrSize < bufSize →
      free (heapStart + hdrSize) (⟨true, s1⟩ :: ⟨true, s2⟩ :: post)
        = ⟨false, s1⟩ :: ⟨true, s2⟩ :: post
      ∧ ((post = [] ∨ (∃ c post2, post = c :: post2 ∧ c.used = true)) →
          free (heapStart + hdrSize + s1 + hdrSize)
            (free (heapStart + hdrSize) (⟨true, s1⟩ :: ⟨true, s2⟩ :: post))
            = ⟨false, s1 + s2 + hdrSize⟩ :: post)
      ∧ (∀ (c : Block) (post2 : Heap), post = c :: post2 → c.used = false →
          free (heapStart + hdrSize + s1 + hdrSize)
            (free (heapStart + hdrSize) (⟨true, s1⟩ :: ⟨true, s2⟩ :: post))
            = ⟨false, s1 + s2 + c.size + 2 * hdrSize⟩ :: post2) := by
  intro s1 s2 post hfit
  have hpos := hdrSize_pos
  have hbuf : bufSize = 256 := rfl
  have hend : heapEnd = heapStart + bufSize := rfl
  have hfreeA : free (heapStart + hdrSize) (⟨true, s1⟩ :: ⟨true, s2⟩ :: post)
      = ⟨false, s1⟩ :: ⟨true, s2⟩ :: post := by
    simp only [free]
    rw [if_neg (by omega)]
    rw [show heapStart + hdrSize - hdrSize - heapStart = 0 from by omega]
    rw [do_free_zero]
    simp [forwardFree, markFree]
  have hchar := do_free_char [⟨false, s1⟩] ⟨true, s2⟩ post
  simp only [List.cons_append, List.nil_append] at hchar
  have hhs : heapSize [(⟨false, s1⟩ : Block)] = s1 + hdrSize := by
    simp [heapSize]
  rw [hhs] at hchar
  have hfreeB : free (heapStart + hdrSize + s1 + hdrSize)
      (⟨false, s1⟩ :: ⟨true, s2⟩ :: post)
      = backAttach [⟨false, s1⟩] (forwardFree ⟨true, s2⟩ post).1
          (forwardFree ⟨true, s2⟩ post).2 := by
    simp only [free]
    rw [if_neg (by omega)]
    rw [show heapStart + hdrSize + s1 + hdrSize - hdrSize - heapStart = s1 + hdrSize from by omega]
    exact hchar
  refine ⟨hfreeA, ?_, ?_⟩
  · intro hpost
    rw [hfreeA, hfreeB]
    have hff : forwardFree ⟨true, s2⟩ post = (⟨false, s2⟩, post) := by
      rcases hpost with rfl | ⟨c, post2, rfl, hcu⟩
      · simp [forwardFree, markFree]
      · simp [forwardFree, markFree, hcu]
    rw [hff, backAttach_one, if_pos rfl]
    simp only [heap_merge_blocks]
  · intro c post2 hp hcu
    subst hp
    rw [hfreeA, hfreeB]
    have hff : forwardFree ⟨true, s2⟩ (c :: post2)
        = (⟨false, s2 + c.size + hdrSize⟩, post2) := by
      simp [forwardFree, markFree, hcu, heap_merge_blocks]
    rw [hff, backAttach_one, if_pos rfl]
    simp only [heap_merge_blocks]
    rw [show s1 + (s2 + c.size + hdrSize) + hdrSize
        = s1 + s2 + c.size + 2 * hdrSize from by omega]

theorem coalesce_after_free_free_witness :
    free (heapStart + hdrSize + 16 + hdrSize)
      (free (heapStart + hdrSize) [⟨true, 16⟩, ⟨true, 16⟩])
      = [⟨false, (16 : Nat) + 16 + hdrSize⟩] :=
  (coalesce_after_free_free 16 16 [] (by decide)).2.1 (Or.inl rfl)
